import Mathlib

/-!
Verification of the tree_magic MIME-detection core (`src/lib.rs`):
the type-hierarchy graph built from checker contributions, alias
resolution, support lookup, and the recursive most-specific-match walk.

The two concrete checkers (`fdo_magic`, `basetype`) live in modules that
are not part of the verified core; the development is parametric in the
list of registered checkers, mirroring the `CHECKERS` slice.

Bytes are modelled as `List Nat`; MIME strings as `String`; a petgraph
`NodeIndex` as `Nat` (nodes are numbered in insertion order, exactly as
petgraph assigns indices); a petgraph edge `(a, b)` is the directed edge
`a → b`.
-/

set_option maxHeartbeats 1000000

namespace TreeMagic

/-- Byte-lexicographic comparison on character lists (the order used by
Rust's `sort_unstable` on `&str`, which compares byte-wise). -/
def lexLeB : List Char → List Char → Bool
  | [], _ => true
  | _ :: _, [] => false
  | a :: as, b :: bs =>
    if a.toNat < b.toNat then true
    else if b.toNat < a.toNat then false
    else lexLeB as bs

/-- `strLe a b` : byte-lexicographic `a ≤ b` on strings. -/
def strLe (a b : String) : Prop := lexLeB a.toList b.toList = true

instance : DecidableRel strLe := fun _ _ => instDecidableEqBool _ _

/-- A file handle, modelled by its byte contents.  A checker's
`match_file` receives the handle and may inspect it arbitrarily. -/
structure FileM where
  contents : List Nat

/-- The `Checker` trait (lib.rs lines 79-85). -/
structure Checker where
  match_bytes : List Nat → String → Bool
  match_file : FileM → String → Bool
  get_supported : List String
  get_subclasses : List (String × String)
  get_aliaslist : List (String × String)

/-- `CHECKER_SUPPORT` (lines 94-102): for each checker in order, every
supported mime is inserted into the map, so a later checker overwrites an
earlier one for the same mime.  `checkerSupport cs m` is the resulting
lookup. -/
def checkerSupport (cs : List Checker) (m : String) : Option Checker :=
  cs.foldl (fun acc c => if m ∈ c.get_supported then some c else acc) none

/-- `ALIASES` (lines 104-110): the alias maps of all checkers merged in
order, later entries overwriting earlier ones for the same key.
`aliasLookup cs m` is the resulting lookup. -/
def aliasLookup (cs : List Checker) (m : String) : Option String :=
  (cs.foldl (fun acc c => acc ++ c.get_aliaslist) []).foldl
    (fun acc p => if p.1 = m then some p.2 else acc) none

/-- `get_alias` (lines 246-251). -/
def get_alias (cs : List Checker) (m : String) : String :=
  match aliasLookup cs m with
  | some x => x
  | none => m

/-- `TYPEORDER` (lines 70-77). -/
def TYPEORDER : List String :=
  ["image/png", "image/jpeg", "image/gif", "application/zip",
   "application/x-msdos-executable", "application/pdf"]

/-- Lines 131-139: concatenate all `get_supported()` lists
(`mimelist.extend`), `sort_unstable`, `dedup`.  Rust's `dedup` removes
consecutive duplicates; on the sorted list this equals full
deduplication, so `List.dedup` is used. -/
def mimelistOf (cs : List Checker) : List String :=
  (List.insertionSort strLe (cs.foldl (fun acc c => acc ++ c.get_supported) [])).dedup

/-- One `added_mimes.entry(s).or_insert_with(|| graph.add_node(s))` step
(lines 165-179): a missing node is appended, receiving the next index. -/
def addSentinel (l : List String) (s : String) : List String :=
  if s ∈ l then l else l ++ [s]

/-- The node list of the graph: one node per distinct supported type, in
sorted order (lines 142-145), then the four sentinel nodes inserted on
demand in source order (lines 165-179). -/
def nodesOf (cs : List Checker) : List String :=
  addSentinel (addSentinel (addSentinel (addSentinel (mimelistOf cs)
    "text/plain") "application/octet-stream") "all/all") "all/allfiles"

/-- Index of a mime's node in the graph (the `added_mimes` map). -/
def nodeIdx (cs : List Checker) (s : String) : Nat :=
  (nodesOf cs).indexOf s

/-- `TYPE.graph[v]`: the mime label of node `v`. -/
def label (cs : List Checker) (v : Nat) : String :=
  (nodesOf cs).getD v ""

/-- Pass 1 (lines 147-161): for every declared pair `(a, b)`, if both
endpoints are declared supported types (lookup in `added_mimes` before
the sentinel insertions) add the edge `a → b`, otherwise drop the pair
silently.  Collected into a set (`FnvHashSet`); `dedup` keeps the
membership semantics. -/
def edgeList (cs : List Checker) : List (Nat × Nat) :=
  ((cs.foldl (fun acc c => acc ++ c.get_subclasses) []).filterMap (fun p =>
    if p.1 ∈ mimelistOf cs ∧ p.2 ∈ mimelistOf cs then
      some ((mimelistOf cs).indexOf p.1, (mimelistOf cs).indexOf p.2)
    else none)).dedup

/-- Whether node `v` has an incoming edge in the edge set `es`. -/
def hasIncoming (es : List (Nat × Nat)) (v : Nat) : Bool :=
  es.any (fun e => decide (e.2 = v))

/-- petgraph `externals(Incoming)`: the nodes with no incoming edge, in
increasing index order (petgraph iterates node indices in order). -/
def externalsOf (n : Nat) (es : List (Nat × Nat)) : List Nat :=
  (List.range n).filter (fun v => !hasIncoming es v)

/-- `mimetype.split('/').next().unwrap_or("")` (line 184): the part of
the type string before the first `/` (computed on the character list). -/
def toplevel (m : String) : String :=
  (m.toList.takeWhile (fun c => !decide (c = '/'))).asString

/-- The four sentinel node indices checked by the fallback pass
(lines 186-190). -/
def sentinelNodes (cs : List Checker) : List Nat :=
  [nodeIdx cs "text/plain", nodeIdx cs "application/octet-stream",
   nodeIdx cs "all/all", nodeIdx cs "all/allfiles"]

/-- The sentinel chosen for an orphan node by its toplevel
(lines 194-200). -/
def fallbackParent (cs : List Checker) (m : String) : Nat :=
  if toplevel m = "text" then nodeIdx cs "text/plain"
  else if toplevel m = "inode" then nodeIdx cs "all/all"
  else nodeIdx cs "application/octet-stream"

/-- Pass 2, `edge_list_2` (lines 181-201): for every node with no
incoming edge that is not itself one of the four sentinel nodes, the
edge `(chosen sentinel) → node`. -/
def edgeList2 (cs : List Checker) : List (Nat × Nat) :=
  (externalsOf (nodesOf cs).length (edgeList cs)).filterMap (fun v =>
    if v ∈ sentinelNodes cs then none
    else some (fallbackParent cs (label cs v), v))

/-- Line 203: `graph.extend_with_edges(edge_list_2.difference(&edge_list))`,
after pass 1 already added `edge_list`. -/
def finalEdges (cs : List Checker) : List (Nat × Nat) :=
  edgeList cs ++ (edgeList2 cs).filter (fun e => !decide (e ∈ edgeList cs))

/-- The edge relation of the finished graph. -/
def edgeRel (cs : List Checker) (u v : Nat) : Prop :=
  (u, v) ∈ finalEdges cs

/-- `neighbors_directed(p, Outgoing)` (lines 215-218): the children of
`p`.  petgraph's neighbor order is an internal artifact of hash-set
insertion order; the canonical increasing order is used here (no claim
proved below depends on the pre-reorder order of this list). -/
def childrenOf (cs : List Checker) (p : Nat) : List Nat :=
  (List.range (nodesOf cs).length).filter (fun v => decide ((p, v) ∈ finalEdges cs))

/-- One iteration of the reorder loop (lines 220-226): `x = children[i]`;
if its label is in `TYPEORDER`, `children.remove(i)` then
`children.insert(0, x)`. -/
def moveStep (p : α → Bool) (l : List α) (i : Nat) : List α :=
  match l[i]? with
  | none => l
  | some x => if p x then x :: l.eraseIdx i else l

/-- The reorder loop (lines 220-226): `for i in 0..children.len()`,
where the length is fixed before the loop (every step preserves it). -/
def reorder (p : α → Bool) (l : List α) : List α :=
  (List.range l.length).foldl (moveStep p) l

/-- `typegraph_walker` (lines 209-243).  The Rust source recurses without
any bound and diverges on a cyclic graph; a fuel parameter makes the
recursion structural.  `from_u8_node` / `from_file_node` start it with
fuel = number of nodes, which is never exhausted on an acyclic graph
(see `walker_most_specific`).  The child loop tests children in order
and returns at the first match, which is exactly
`find?` followed by the recursive call on the found child. -/
def typegraphWalker (cs : List Checker) {T : Type} (matchfn : String → T → Bool)
    (input : T) : Nat → Nat → Option String
  | 0, _ => none
  | fuel + 1, parentnode =>
    let children := reorder (fun v => TYPEORDER.contains (label cs v))
      (childrenOf cs parentnode)
    match children.find? (fun c => matchfn (label cs c) input) with
    | none => none
    | some c =>
      match typegraphWalker cs matchfn input fuel c with
      | some t => some t
      | none => some (label cs c)

/-- `match_u8_noalias` (lines 255-260). -/
def match_u8_noalias (cs : List Checker) (m : String) (bytes : List Nat) : Bool :=
  match checkerSupport cs m with
  | none => false
  | some c => c.match_bytes bytes m

/-- `match_u8` (lines 277-279). -/
def match_u8 (cs : List Checker) (m : String) (bytes : List Nat) : Bool :=
  match_u8_noalias cs (get_alias cs m) bytes

/-- `from_u8_node` (lines 292-294). -/
def from_u8_node (cs : List Checker) (node : Nat) (bytes : List Nat) : Option String :=
  typegraphWalker cs (match_u8_noalias cs) bytes (nodesOf cs).length node

/-- `from_u8` (lines 309-315).  `none` models a panic: either no external
node exists (`"No filetype definitions are loaded."`) or the walk found
nothing and the `unwrap()` fails.  `from_u8` never returns normally in
those situations. -/
def from_u8 (cs : List Checker) (bytes : List Nat) : Option String :=
  match (externalsOf (nodesOf cs).length (finalEdges cs)).head? with
  | none => none
  | some root => from_u8_node cs root bytes

/-- `match_file_noalias` (lines 336-341). -/
def match_file_noalias (cs : List Checker) (m : String) (f : FileM) : Bool :=
  match checkerSupport cs m with
  | none => false
  | some c => c.match_file f m

/-- `match_file` (lines 330-332). -/
def match_file (cs : List Checker) (m : String) (f : FileM) : Bool :=
  match_file_noalias cs (get_alias cs m) f

/-- `read_bytes` (lines 427-431): the first `bytecount` bytes of the
file (fewer if the file is shorter).  The read itself is modelled as
always succeeding — the file is its contents. -/
def read_bytes (f : FileM) (bytecount : Nat) : Option (List Nat) :=
  some (f.contents.take bytecount)

/-- `from_file_node` (lines 367-381). -/
def from_file_node (cs : List Checker) (node : Nat) (f : FileM) : Option String :=
  if !match_file cs "application/octet-stream" f then
    typegraphWalker cs (match_file_noalias cs) f (nodesOf cs).length node
  else
    match read_bytes f 2048 with
    | none => none
    | some bytes => from_u8_node cs node bytes

/-- `from_file` (lines 398-401).  Unlike `from_u8`, a `none` here is a
value the function returns normally (the `?` operator), not a panic. -/
def from_file (cs : List Checker) (f : FileM) : Option String :=
  match (externalsOf (nodesOf cs).length (finalEdges cs)).head? with
  | none => none
  | some root => from_file_node cs root f

/-! ### A small concrete checker configuration, used by the witnesses.
It mirrors the shape of the real catalog: `basetype`-style edges
all/all → all/allfiles → application/octet-stream → text/plain, two
image types picked up by the fallback pass, and one alias pair. -/

/-- A concrete checker: matches every type it supports except
`image/gif`, which requires the bytes to start with `GIF`. -/
def cW : Checker where
  match_bytes := fun bytes m =>
    if m == "image/gif" then bytes.take 3 == [71, 73, 70] else true
  match_file := fun _ m => !(m == "image/gif")
  get_supported := ["all/all", "all/allfiles", "application/octet-stream",
    "text/plain", "image/gif", "image/png"]
  get_subclasses := [("all/all", "all/allfiles"),
    ("all/allfiles", "application/octet-stream"),
    ("application/octet-stream", "text/plain")]
  get_aliaslist := [("application/x-zip-compressed", "application/zip")]

/-- The concrete checker list used by the witnesses. -/
def cfgW : List Checker := [cW]

/-- A concrete file whose contents start with the GIF magic. -/
def fW : FileM := ⟨[71, 73, 70, 56, 57, 97]⟩

/-! ### List helpers -/

/-- Membership in an `extend`-style fold. -/
theorem mem_foldl_append {α β : Type} (f : β → List α) :
    ∀ (l : List β) (init : List α) (x : α),
      x ∈ l.foldl (fun acc c => acc ++ f c) init ↔ x ∈ init ∨ ∃ c ∈ l, x ∈ f c := by
  intro l
  induction l with
  | nil => simp
  | cons c t ih =>
    intro init x
    rw [List.foldl_cons, ih]
    simp only [List.mem_append, List.mem_cons]
    constructor
    · rintro ((h | h) | ⟨c2, h2, h3⟩)
      · exact Or.inl h
      · exact Or.inr ⟨c, Or.inl rfl, h⟩
      · exact Or.inr ⟨c2, Or.inr h2, h3⟩
    · rintro (h | ⟨c2, (rfl | h2), h3⟩)
      · exact Or.inl (Or.inl h)
      · exact Or.inl (Or.inr h3)
      · exact Or.inr ⟨c2, h2, h3⟩

/-- Removing the element at the junction of an append. -/
theorem eraseIdx_append_cons {α : Type} (l1 : List α) (x : α) (l2 : List α) :
    (l1 ++ x :: l2).eraseIdx l1.length = l1 ++ l2 := by
  induction l1 with
  | nil => rfl
  | cons a t ih => simp [List.eraseIdx, ih]

/-- Indexing at the junction of an append. -/
theorem getElem?_append_cons {α : Type} (l1 : List α) (x : α) (l2 : List α) :
    (l1 ++ x :: l2)[l1.length]? = some x := by
  rw [List.getElem?_append_right (Nat.le_refl _)]
  simp

/-- `indexOf` looks only at the first occurrence, so appending on the
right does not change it for members. -/
theorem indexOf_append_left {α : Type} [BEq α] [LawfulBEq α] {l1 : List α} (t : List α)
    {a : α} (h : a ∈ l1) :
    (l1 ++ t).indexOf a = l1.indexOf a := by
  induction l1 with
  | nil => cases h
  | cons b l ih =>
    rw [List.cons_append, List.indexOf_cons, List.indexOf_cons]
    by_cases hb : b == a
    · simp [hb]
    · have h2 : a ∈ l := by
        rcases List.mem_cons.mp h with rfl | h2
        · simp at hb
        · exact h2
      simp [hb, ih h2]

/-! ### The reorder loop: characterization -/

/-- Invariant of the reorder loop: after the positions of `front`, `mid`
and before those of `rest` have been processed, the members found so far
sit reversed in `front`, the non-members in `mid`; processing the
remaining positions hoists the members of `rest` (reversed) to the very
front and leaves its non-members at the back. -/
theorem foldl_moveStep {α : Type} (p : α → Bool) :
    ∀ (rest front mid : List α),
      (List.range' (front.length + mid.length) rest.length).foldl (moveStep p)
          (front ++ mid ++ rest)
        = (rest.filter p).reverse ++ front ++ mid ++ rest.filter (fun x => !p x) := by
  intro rest
  induction rest with
  | nil => intro front mid; simp
  | cons x rs ih =>
    intro front mid
    rw [List.length_cons, List.range'_succ, List.foldl_cons]
    have hget : (front ++ mid ++ x :: rs)[front.length + mid.length]? = some x := by
      rw [← List.length_append]
      exact getElem?_append_cons (front ++ mid) x rs
    by_cases hp : p x = true
    · have hstep : moveStep p (front ++ mid ++ x :: rs) (front.length + mid.length)
          = (x :: front) ++ mid ++ rs := by
        rw [moveStep, hget]
        simp only [hp, if_pos]
        rw [← List.length_append, eraseIdx_append_cons (front ++ mid) x rs]
        simp
      rw [hstep]
      have hidx : front.length + mid.length + 1 = (x :: front).length + mid.length := by
        simp [Nat.add_right_comm]
      rw [hidx, ih (x :: front) mid]
      simp [List.filter_cons, hp, List.append_assoc]
    · have hp2 : p x = false := by simpa using hp
      have hstep : moveStep p (front ++ mid ++ x :: rs) (front.length + mid.length)
          = front ++ (mid ++ [x]) ++ rs := by
        rw [moveStep, hget]
        simp [hp2, List.append_assoc]
      rw [hstep]
      have hidx : front.length + mid.length + 1 = front.length + (mid ++ [x]).length := by
        simp
        omega
      rw [hidx, ih front (mid ++ [x])]
      simp [List.filter_cons, hp2, List.append_assoc]

/-- The net effect of the reorder loop: the members of `p` end up at the
front in reverse of their original order, followed by the non-members in
their original order. -/
theorem reorder_eq {α : Type} (p : α → Bool) (l : List α) :
    reorder p l = (l.filter p).reverse ++ l.filter (fun x => !p x) := by
  have h := foldl_moveStep p l [] []
  simpa [reorder, List.range_eq_range'] using h

/-- The reorder loop permutes the children; it never drops or adds one. -/
theorem reorder_perm {α : Type} (p : α → Bool) (l : List α) : List.Perm (reorder p l) l := by
  rw [reorder_eq]
  exact ((List.reverse_perm _).append_right _).trans (List.filter_append_perm p l)

theorem mem_reorder {α : Type} (p : α → Bool) (l : List α) (x : α) :
    x ∈ reorder p l ↔ x ∈ l :=
  (reorder_perm p l).mem_iff

/-! ### Facts about the node list -/

theorem mem_addSentinel {l : List String} {s x : String} :
    x ∈ addSentinel l s ↔ x ∈ l ∨ x = s := by
  unfold addSentinel
  by_cases h : s ∈ l
  · rw [if_pos h]
    exact ⟨Or.inl, fun h1 => h1.elim id (fun he => he ▸ h)⟩
  · rw [if_neg h]
    simp

theorem mem_addSentinel_of_mem {l : List String} {s x : String} (h : x ∈ l) :
    x ∈ addSentinel l s :=
  mem_addSentinel.mpr (Or.inl h)

theorem self_mem_addSentinel (l : List String) (s : String) : s ∈ addSentinel l s := by
  unfold addSentinel
  by_cases h : s ∈ l <;> simp [h]

theorem addSentinel_eq_append (l : List String) (s : String) :
    ∃ t, addSentinel l s = l ++ t := by
  unfold addSentinel
  by_cases h : s ∈ l
  · exact ⟨[], by simp [h]⟩
  · exact ⟨[s], by simp [h]⟩

theorem addSentinel_nodup {l : List String} {s : String} (h : l.Nodup) :
    (addSentinel l s).Nodup := by
  unfold addSentinel
  by_cases hs : s ∈ l
  · simpa [hs] using h
  · rw [if_neg hs]
    simp [List.nodup_append, h, hs]

theorem mimelist_nodup (cs : List Checker) : (mimelistOf cs).Nodup :=
  List.nodup_dedup _

theorem nodes_nodup (cs : List Checker) : (nodesOf cs).Nodup :=
  addSentinel_nodup (addSentinel_nodup (addSentinel_nodup (addSentinel_nodup
    (mimelist_nodup cs))))

theorem nodes_eq_append (cs : List Checker) : ∃ t, nodesOf cs = mimelistOf cs ++ t := by
  obtain ⟨t1, h1⟩ := addSentinel_eq_append (mimelistOf cs) "text/plain"
  obtain ⟨t2, h2⟩ := addSentinel_eq_append (addSentinel (mimelistOf cs) "text/plain")
    "application/octet-stream"
  obtain ⟨t3, h3⟩ := addSentinel_eq_append (addSentinel (addSentinel (mimelistOf cs)
    "text/plain") "application/octet-stream") "all/all"
  obtain ⟨t4, h4⟩ := addSentinel_eq_append (addSentinel (addSentinel (addSentinel
    (mimelistOf cs) "text/plain") "application/octet-stream") "all/all") "all/allfiles"
  refine ⟨t1 ++ t2 ++ t3 ++ t4, ?_⟩
  rw [nodesOf, h4, h3, h2, h1]
  simp [List.append_assoc]

theorem mem_nodes_of_mem_mimelist {cs : List Checker} {m : String}
    (h : m ∈ mimelistOf cs) : m ∈ nodesOf cs := by
  obtain ⟨t, ht⟩ := nodes_eq_append cs
  rw [ht]
  exact List.mem_append_left _ h

theorem mimelist_length_le (cs : List Checker) :
    (mimelistOf cs).length ≤ (nodesOf cs).length := by
  obtain ⟨t, ht⟩ := nodes_eq_append cs
  rw [ht]
  simp

theorem mem_mimelist_iff {cs : List Checker} {m : String} :
    m ∈ mimelistOf cs ↔ ∃ c ∈ cs, m ∈ c.get_supported := by
  rw [mimelistOf, List.mem_dedup, List.mem_insertionSort]
  simpa using mem_foldl_append (fun c : Checker => c.get_supported) cs [] m

theorem sentinels_mem (cs : List Checker) :
    "text/plain" ∈ nodesOf cs ∧ "application/octet-stream" ∈ nodesOf cs ∧
      "all/all" ∈ nodesOf cs ∧ "all/allfiles" ∈ nodesOf cs := by
  refine ⟨?_, ?_, ?_, ?_⟩
  · exact mem_addSentinel_of_mem (mem_addSentinel_of_mem (mem_addSentinel_of_mem
      (self_mem_addSentinel _ _)))
  · exact mem_addSentinel_of_mem (mem_addSentinel_of_mem (self_mem_addSentinel _ _))
  · exact mem_addSentinel_of_mem (self_mem_addSentinel _ _)
  · exact self_mem_addSentinel _ _

theorem nodeIdx_lt {cs : List Checker} {m : String} (h : m ∈ nodesOf cs) :
    nodeIdx cs m < (nodesOf cs).length :=
  List.indexOf_lt_length.mpr h

theorem label_mem {cs : List Checker} {v : Nat} (h : v < (nodesOf cs).length) :
    label cs v ∈ nodesOf cs := by
  rw [label, List.getD_eq_getElem _ _ h]
  exact List.getElem_mem h

theorem label_nodeIdx {cs : List Checker} {m : String} (h : m ∈ nodesOf cs) :
    label cs (nodeIdx cs m) = m := by
  have hlt := List.indexOf_lt_length.mpr h
  rw [label, nodeIdx, List.getD_eq_getElem _ _ hlt]
  have h2 := List.indexOf_get (l := nodesOf cs) hlt
  rw [List.get_eq_getElem] at h2
  exact h2

theorem nodeIdx_label {cs : List Checker} {v : Nat} (h : v < (nodesOf cs).length) :
    nodeIdx cs (label cs v) = v := by
  have hmem : label cs v ∈ nodesOf cs := label_mem h
  have hlt := List.indexOf_lt_length.mpr hmem
  have h2 : (nodesOf cs).get ⟨v, h⟩ = label cs v :=
    (List.getD_eq_getElem (nodesOf cs) "" h).symm
  have hg : (nodesOf cs).get ⟨nodeIdx cs (label cs v), hlt⟩ = (nodesOf cs).get ⟨v, h⟩ :=
    (List.indexOf_get (l := nodesOf cs) hlt).trans h2.symm
  exact (List.Nodup.getElem_inj_iff (nodes_nodup cs)).mp hg

theorem nodeIdx_eq_mimelist_indexOf {cs : List Checker} {m : String}
    (h : m ∈ mimelistOf cs) :
    nodeIdx cs m = (mimelistOf cs).indexOf m := by
  obtain ⟨t, ht⟩ := nodes_eq_append cs
  rw [nodeIdx, ht, indexOf_append_left t h]

/-! ### Facts about the edge sets -/

theorem hasIncoming_iff {es : List (Nat × Nat)} {v : Nat} :
    hasIncoming es v = true ↔ ∃ e ∈ es, e.2 = v := by
  simp [hasIncoming, List.any_eq_true]

theorem mem_externalsOf {n v : Nat} {es : List (Nat × Nat)} :
    v ∈ externalsOf n es ↔ v < n ∧ hasIncoming es v = false := by
  simp [externalsOf, List.mem_filter, List.mem_range, Bool.not_eq_true']

theorem mem_childrenOf {cs : List Checker} {p c : Nat} :
    c ∈ childrenOf cs p ↔ c < (nodesOf cs).length ∧ (p, c) ∈ finalEdges cs := by
  simp [childrenOf, List.mem_filter, List.mem_range]

theorem mem_edgeList {cs : List Checker} {e : Nat × Nat} (h : e ∈ edgeList cs) :
    ∃ a b : String, a ∈ mimelistOf cs ∧ b ∈ mimelistOf cs ∧
      e = ((mimelistOf cs).indexOf a, (mimelistOf cs).indexOf b) := by
  rw [edgeList, List.mem_dedup] at h
  obtain ⟨p, _, he⟩ := List.mem_filterMap.mp h
  by_cases hc : p.1 ∈ mimelistOf cs ∧ p.2 ∈ mimelistOf cs
  · rw [if_pos hc] at he
    exact ⟨p.1, p.2, hc.1, hc.2, (Option.some.inj he).symm⟩
  · rw [if_neg hc] at he
    cases he

theorem edgeList_lt {cs : List Checker} {e : Nat × Nat} (h : e ∈ edgeList cs) :
    e.1 < (mimelistOf cs).length ∧ e.2 < (mimelistOf cs).length := by
  obtain ⟨a, b, ha, hb, he⟩ := mem_edgeList h
  rw [he]
  exact ⟨List.indexOf_lt_length.mpr ha, List.indexOf_lt_length.mpr hb⟩

theorem mem_edgeList2 {cs : List Checker} {e : Nat × Nat} (h : e ∈ edgeList2 cs) :
    e.2 < (nodesOf cs).length ∧ hasIncoming (edgeList cs) e.2 = false ∧
      e.2 ∉ sentinelNodes cs ∧ e = (fallbackParent cs (label cs e.2), e.2) := by
  obtain ⟨v, hv, he⟩ := List.mem_filterMap.mp h
  by_cases hs : v ∈ sentinelNodes cs
  · rw [if_pos hs] at he
    cases he
  · rw [if_neg hs] at he
    obtain rfl := Option.some.inj he
    obtain ⟨hvn, hinc⟩ := mem_externalsOf.mp hv
    exact ⟨hvn, hinc, hs, rfl⟩

theorem edgeList2_mem_of {cs : List Checker} {v : Nat}
    (hv : v < (nodesOf cs).length) (hinc : hasIncoming (edgeList cs) v = false)
    (hs : v ∉ sentinelNodes cs) :
    (fallbackParent cs (label cs v), v) ∈ edgeList2 cs := by
  apply List.mem_filterMap.mpr
  exact ⟨v, mem_externalsOf.mpr ⟨hv, hinc⟩, by rw [if_neg hs]⟩

theorem mem_finalEdges {cs : List Checker} {e : Nat × Nat} :
    e ∈ finalEdges cs ↔ e ∈ edgeList cs ∨ e ∈ edgeList2 cs := by
  rw [finalEdges, List.mem_append, List.mem_filter]
  constructor
  · rintro (h | ⟨h, _⟩)
    · exact Or.inl h
    · exact Or.inr h
  · rintro (h | h)
    · exact Or.inl h
    · by_cases hc : e ∈ edgeList cs
      · exact Or.inl hc
      · exact Or.inr ⟨h, by simp [hc]⟩

theorem fallbackParent_lt (cs : List Checker) (m : String) :
    fallbackParent cs m < (nodesOf cs).length := by
  obtain ⟨h1, h2, h3, _⟩ := sentinels_mem cs
  rw [fallbackParent]
  by_cases ht : toplevel m = "text"
  · simpa [ht] using nodeIdx_lt h1
  by_cases hi : toplevel m = "inode"
  · simpa [ht, hi] using nodeIdx_lt h3
  · simpa [ht, hi] using nodeIdx_lt h2

theorem fallbackParent_mem_sentinels (cs : List Checker) (m : String) :
    fallbackParent cs m ∈ sentinelNodes cs := by
  rw [fallbackParent, sentinelNodes]
  by_cases ht : toplevel m = "text"
  · simp [ht]
  by_cases hi : toplevel m = "inode" <;> simp [ht, hi]

theorem finalEdges_lt {cs : List Checker} {e : Nat × Nat} (h : e ∈ finalEdges cs) :
    e.1 < (nodesOf cs).length ∧ e.2 < (nodesOf cs).length := by
  rcases mem_finalEdges.mp h with h1 | h2
  · have hee := edgeList_lt h1
    have hle := mimelist_length_le cs
    omega
  · obtain ⟨hv, _, _, he⟩ := mem_edgeList2 h2
    refine ⟨?_, hv⟩
    rw [he]
    exact fallbackParent_lt cs (label cs e.2)

theorem edgeList2_not_mem_edgeList {cs : List Checker} {e : Nat × Nat}
    (h : e ∈ edgeList2 cs) : e ∉ edgeList cs := by
  obtain ⟨_, hinc, _, _⟩ := mem_edgeList2 h
  intro hmem
  have h2 : hasIncoming (edgeList cs) e.2 = true := hasIncoming_iff.mpr ⟨e, hmem, rfl⟩
  rw [hinc] at h2
  cases h2

/-! ### Facts about the walk -/

theorem walker_zero (cs : List Checker) {T : Type} (matchfn : String → T → Bool)
    (input : T) (p : Nat) : typegraphWalker cs matchfn input 0 p = none := by
  simp only [typegraphWalker]

theorem walker_succ (cs : List Checker) {T : Type} (matchfn : String → T → Bool)
    (input : T) (fuel p : Nat) :
    typegraphWalker cs matchfn input (fuel + 1) p =
      match (reorder (fun v => TYPEORDER.contains (label cs v)) (childrenOf cs p)).find?
          (fun c => matchfn (label cs c) input) with
      | none => none
      | some c =>
        match typegraphWalker cs matchfn input fuel c with
        | some t => some t
        | none => some (label cs c) := by
  simp only [typegraphWalker]

theorem walker_succ_none {cs : List Checker} {T : Type} {matchfn : String → T → Bool}
    {input : T} {fuel p : Nat}
    (hfind : (reorder (fun v => TYPEORDER.contains (label cs v)) (childrenOf cs p)).find?
      (fun c => matchfn (label cs c) input) = none) :
    typegraphWalker cs matchfn input (fuel + 1) p = none := by
  rw [walker_succ, hfind]

theorem walker_succ_some {cs : List Checker} {T : Type} {matchfn : String → T → Bool}
    {input : T} {fuel p c : Nat}
    (hfind : (reorder (fun v => TYPEORDER.contains (label cs v)) (childrenOf cs p)).find?
      (fun c => matchfn (label cs c) input) = some c) :
    typegraphWalker cs matchfn input (fuel + 1) p =
      match typegraphWalker cs matchfn input fuel c with
      | some t => some t
      | none => some (label cs c) := by
  rw [walker_succ, hfind]

/-- If some child of `p` passes the test, the walk from `p` finds a
result (the recursion stops at the first matching child and returns it
or something deeper). -/
theorem walker_some_of_child {cs : List Checker} {T : Type} {matchfn : String → T → Bool}
    {input : T} {p : Nat} {fuel : Nat}
    (h : ∃ c ∈ childrenOf cs p, matchfn (label cs c) input = true) :
    typegraphWalker cs matchfn input (fuel + 1) p ≠ none := by
  obtain ⟨c, hc, hm⟩ := h
  intro hw
  cases hfind : (reorder (fun v => TYPEORDER.contains (label cs v))
      (childrenOf cs p)).find? (fun c => matchfn (label cs c) input) with
  | none =>
    have h2 := List.find?_eq_none.mp hfind c ((mem_reorder _ _ _).mpr hc)
    simp [hm] at h2
  | some c2 =>
    rw [walker_succ_some hfind] at hw
    cases hrec : typegraphWalker cs matchfn input fuel c2 with
    | none => simp only [hrec] at hw; cases hw
    | some t => simp only [hrec] at hw; cases hw

/-- Whatever a successful walk returns is the label of a strict
descendant of the start node. -/
theorem walker_descendant {cs : List Checker} {T : Type} {matchfn : String → T → Bool}
    {input : T} :
    ∀ {fuel p : Nat} {t : String}, typegraphWalker cs matchfn input fuel p = some t →
      ∃ v, Relation.TransGen (edgeRel cs) p v ∧ t = label cs v ∧
        v < (nodesOf cs).length := by
  intro fuel
  induction fuel with
  | zero =>
    intro p t h
    rw [walker_zero] at h
    cases h
  | succ fuel ih =>
    intro p t h
    cases hfind : (reorder (fun v => TYPEORDER.contains (label cs v))
        (childrenOf cs p)).find? (fun c => matchfn (label cs c) input) with
    | none => rw [walker_succ_none hfind] at h; cases h
    | some c =>
      rw [walker_succ_some hfind] at h
      have hcmem : c ∈ childrenOf cs p :=
        (mem_reorder _ _ _).mp (List.mem_of_find?_eq_some hfind)
      obtain ⟨hclt, hedge⟩ := mem_childrenOf.mp hcmem
      cases hrec : typegraphWalker cs matchfn input fuel c with
      | some t2 =>
        simp only [hrec, Option.some.injEq] at h
        obtain rfl := h
        obtain ⟨v, hpath, ht, hv⟩ := ih hrec
        exact ⟨v, Relation.TransGen.head hedge hpath, ht, hv⟩
      | none =>
        simp only [hrec, Option.some.injEq] at h
        obtain rfl := h.symm
        exact ⟨c, Relation.TransGen.single hedge, rfl, hclt⟩

/-- Given a rank function that strictly increases along every edge and
stays below the node count (i.e., the graph is acyclic), a walk that was
started with fuel = node count never exhausts its fuel, and a successful
result is a node that passes the test while none of its children do. -/
theorem walker_most_specific {cs : List Checker} {T : Type} {matchfn : String → T → Bool}
    {input : T} (rank : Nat → Nat)
    (hrank : ∀ e ∈ finalEdges cs, rank e.1 < rank e.2)
    (hbound : ∀ v, v < (nodesOf cs).length → rank v < (nodesOf cs).length) :
    ∀ {fuel p : Nat} {t : String}, p < (nodesOf cs).length →
      (nodesOf cs).length ≤ fuel + rank p →
      typegraphWalker cs matchfn input fuel p = some t →
      ∃ v, v < (nodesOf cs).length ∧ t = label cs v ∧
        matchfn (label cs v) input = true ∧
        ∀ c ∈ childrenOf cs v, matchfn (label cs c) input = false := by
  intro fuel
  induction fuel with
  | zero =>
    intro p t hp hfuel h
    have := hbound p hp
    omega
  | succ fuel ih =>
    intro p t hp hfuel h
    cases hfind : (reorder (fun v => TYPEORDER.contains (label cs v))
        (childrenOf cs p)).find? (fun c => matchfn (label cs c) input) with
    | none => rw [walker_succ_none hfind] at h; cases h
    | some c =>
      rw [walker_succ_some hfind] at h
      have hcmem : c ∈ childrenOf cs p :=
        (mem_reorder _ _ _).mp (List.mem_of_find?_eq_some hfind)
      have hmc : matchfn (label cs c) input = true := by
        have h4 := List.find?_some hfind
        simpa using h4
      obtain ⟨hclt, hedge⟩ := mem_childrenOf.mp hcmem
      have hrpc : rank p < rank c := hrank (p, c) hedge
      cases hrec : typegraphWalker cs matchfn input fuel c with
      | some t2 =>
        simp only [hrec, Option.some.injEq] at h
        obtain rfl := h
        exact ih hclt (by omega) hrec
      | none =>
        simp only [hrec, Option.some.injEq] at h
        obtain rfl := h.symm
        refine ⟨c, hclt, rfl, hmc, ?_⟩
        have hcb := hbound c hclt
        cases fuel with
        | zero => exfalso; omega
        | succ f =>
          intro c2 hc2
          cases hfind2 : (reorder (fun v => TYPEORDER.contains (label cs v))
              (childrenOf cs c)).find? (fun c3 => matchfn (label cs c3) input) with
          | some c3 =>
            rw [walker_succ_some hfind2] at hrec
            cases hrec3 : typegraphWalker cs matchfn input f c3 with
            | some t3 => simp only [hrec3] at hrec; cases hrec
            | none => simp only [hrec3] at hrec; cases hrec
          | none =>
            have h3 := List.find?_eq_none.mp hfind2 c2 ((mem_reorder _ _ _).mpr hc2)
            simpa using h3

/-- A node at the end of a nonempty path has an incoming edge. -/
theorem transGen_hasIncoming {cs : List Checker} {p v : Nat}
    (h : Relation.TransGen (edgeRel cs) p v) :
    hasIncoming (finalEdges cs) v = true := by
  induction h with
  | single he => exact hasIncoming_iff.mpr ⟨(p, _), he, rfl⟩
  | tail _ he _ => exact hasIncoming_iff.mpr ⟨(_, _), he, rfl⟩

/-- A mime no checker supports has no owner in the support table. -/
theorem checkerSupport_eq_none {cs : List Checker} {m : String}
    (h : ∀ c ∈ cs, m ∉ c.get_supported) : checkerSupport cs m = none := by
  induction cs with
  | nil => rfl
  | cons c t ih =>
    rw [checkerSupport, List.foldl_cons, if_neg (h c (List.mem_cons_self c t))]
    exact ih (fun c2 h2 => h c2 (List.mem_cons_of_mem c h2))

/-! ### The claims -/

/-- C1: Most-specific-match postcondition — for every byte sequence, if
`from_u8` returns a type `r`, then `match_u8 r bytes` is true and
`match_u8 c bytes` is false for every child `c` of `r` in the graph.
Hypotheses (the concrete checkers are not part of the verified core):
the catalog is acyclic, witnessed by a rank function increasing along
edges and bounded by the node count, and no graph node label is itself
an alias key, so `match_u8` on node labels is `match_u8_noalias`. -/
theorem c1_most_specific_match (cs : List Checker) (rank : Nat → Nat)
    (bytes : List Nat) (r : String)
    (hrank : ∀ e ∈ finalEdges cs, rank e.1 < rank e.2)
    (hbound : ∀ v, v < (nodesOf cs).length → rank v < (nodesOf cs).length)
    (halias : ∀ m ∈ nodesOf cs, get_alias cs m = m)
    (hres : from_u8 cs bytes = some r) :
    match_u8 cs r bytes = true ∧
      ∀ c ∈ childrenOf cs (nodeIdx cs r), match_u8 cs (label cs c) bytes = false := by
  rw [from_u8] at hres
  cases hroot : (externalsOf (nodesOf cs).length (finalEdges cs)).head? with
  | none => rw [hroot] at hres; cases hres
  | some root =>
    rw [hroot] at hres
    replace hres : typegraphWalker cs (match_u8_noalias cs) bytes
        (nodesOf cs).length root = some r := hres
    have hrootlt : root < (nodesOf cs).length :=
      (mem_externalsOf.mp (List.mem_of_mem_head? hroot)).1
    obtain ⟨v, hvlt, rfl, hmv, hchild⟩ :=
      walker_most_specific rank hrank hbound hrootlt (Nat.le_add_right _ _) hres
    refine ⟨?_, ?_⟩
    · rw [match_u8, halias _ (label_mem hvlt)]
      exact hmv
    · rw [nodeIdx_label hvlt]
      intro c hc
      have hclt := (mem_childrenOf.mp hc).1
      rw [match_u8, halias _ (label_mem hclt)]
      exact hchild c hc

/-- Witness for C1 at the concrete configuration: on GIF-magic bytes
`from_u8` returns `image/png` (the always-true checker answers first in
the reordered child list), which matches while its (empty) child set
trivially does not. -/
theorem c1_witness :
    from_u8 cfgW [71, 73, 70] = some "image/png" ∧
      match_u8 cfgW "image/png" [71, 73, 70] = true ∧
      ∀ c ∈ childrenOf cfgW (nodeIdx cfgW "image/png"),
        match_u8 cfgW (label cfgW c) [71, 73, 70] = false := by
  have h := c1_most_specific_match cfgW (fun v => v) [71, 73, 70] "image/png"
    (by decide) (fun v hv => hv) (by decide) (by decide)
  exact ⟨by decide, h.1, h.2⟩

/-- C2: after catalog construction every node contributed by any
checker's `supportedTypes` is reachable from one of the four sentinel
nodes, and the four sentinels exist in the graph.  Hypothesis: the
contributed subclass edges are acyclic (rank function), per the spec's
"merge … into one consistent DAG". -/
theorem c2_sentinel_reachability (cs : List Checker) (rank : Nat → Nat)
    (hrank : ∀ e ∈ edgeList cs, rank e.1 < rank e.2) :
    ("text/plain" ∈ nodesOf cs ∧ "application/octet-stream" ∈ nodesOf cs ∧
      "all/all" ∈ nodesOf cs ∧ "all/allfiles" ∈ nodesOf cs) ∧
    ∀ c ∈ cs, ∀ m ∈ c.get_supported,
      ∃ s ∈ sentinelNodes cs, Relation.ReflTransGen (edgeRel cs) s (nodeIdx cs m) := by
  refine ⟨sentinels_mem cs, ?_⟩
  have key : ∀ K v, rank v < K → v < (mimelistOf cs).length →
      ∃ s ∈ sentinelNodes cs, Relation.ReflTransGen (edgeRel cs) s v := by
    intro K
    induction K with
    | zero => intro v h; omega
    | succ K ih =>
      intro v hK hv
      by_cases hinc : hasIncoming (edgeList cs) v = true
      · obtain ⟨e, he, he2⟩ := hasIncoming_iff.mp hinc
        have hu : e.1 < (mimelistOf cs).length := (edgeList_lt he).1
        have hru : rank e.1 < rank v := by
          have h3 := hrank e he
          rw [he2] at h3
          exact h3
        obtain ⟨s, hs, hpath⟩ := ih e.1 (by omega) hu
        refine ⟨s, hs, hpath.tail ?_⟩
        show (e.1, v) ∈ finalEdges cs
        rw [← he2]
        exact mem_finalEdges.mpr (Or.inl he)
      · have hincf : hasIncoming (edgeList cs) v = false := by
          cases h3 : hasIncoming (edgeList cs) v
          · rfl
          · exact absurd h3 hinc
        have hvn : v < (nodesOf cs).length := lt_of_lt_of_le hv (mimelist_length_le cs)
        by_cases hsent : v ∈ sentinelNodes cs
        · exact ⟨v, hsent, Relation.ReflTransGen.refl⟩
        · exact ⟨fallbackParent cs (label cs v),
            fallbackParent_mem_sentinels cs (label cs v),
            Relation.ReflTransGen.single
              (mem_finalEdges.mpr (Or.inr (edgeList2_mem_of hvn hincf hsent)))⟩
  intro c hc m hm
  have hmm : m ∈ mimelistOf cs := mem_mimelist_iff.mpr ⟨c, hc, hm⟩
  have hv := List.indexOf_lt_length.mpr hmm
  have h5 := key (rank ((mimelistOf cs).indexOf m) + 1) ((mimelistOf cs).indexOf m)
    (Nat.lt_succ_self _) hv
  rwa [nodeIdx_eq_mimelist_indexOf hmm]

/-- Witness for C2 at the concrete configuration (rank = identity shows
its three checker edges acyclic). -/
theorem c2_witness :
    ("text/plain" ∈ nodesOf cfgW ∧ "application/octet-stream" ∈ nodesOf cfgW ∧
      "all/all" ∈ nodesOf cfgW ∧ "all/allfiles" ∈ nodesOf cfgW) ∧
    ∀ c ∈ cfgW, ∀ m ∈ c.get_supported,
      ∃ s ∈ sentinelNodes cfgW, Relation.ReflTransGen (edgeRel cfgW) s (nodeIdx cfgW m) :=
  c2_sentinel_reachability cfgW (fun v => v) (by decide)

/-- C3 counterexample: at the concrete configuration, `image/gif` is an
orphan non-sentinel node, and the fallback pass adds the edge
`(application/octet-stream, image/gif)` — from the sentinel to the node
— while the claimed direction, from the node to the sentinel, is absent
from the finished graph. -/
theorem c3_counterexample :
    hasIncoming (edgeList cfgW) (nodeIdx cfgW "image/gif") = false ∧
    nodeIdx cfgW "image/gif" ∉ sentinelNodes cfgW ∧
    (nodeIdx cfgW "application/octet-stream", nodeIdx cfgW "image/gif") ∈ finalEdges cfgW ∧
    (nodeIdx cfgW "image/gif", nodeIdx cfgW "application/octet-stream") ∉ finalEdges cfgW ∧
    toplevel "image/gif" ≠ "text" ∧ toplevel "image/gif" ≠ "inode" := by
  decide

/-- C3 (amended): for every node with no incoming edge after the
checker-edge pass that is not one of the four sentinels, exactly one
fallback edge is added, from the sentinel selected by the prefix of the
node's type string before the slash (text → text/plain, inode → all/all,
otherwise application/octet-stream) **to** that node; no second fallback
edge targets the node, fallback edges never target a non-orphan or
sentinel node, and an edge already present from the earlier pass is
never re-added (the two passes are in fact disjoint). -/
theorem c3_fallback_pass (cs : List Checker) (v : Nat)
    (hv : v < (nodesOf cs).length)
    (hext : hasIncoming (edgeList cs) v = false)
    (hns : v ∉ sentinelNodes cs) :
    (fallbackParent cs (label cs v), v) ∈ edgeList2 cs ∧
    (fallbackParent cs (label cs v), v) ∈ finalEdges cs ∧
    (∀ e ∈ edgeList2 cs, e.2 = v → e = (fallbackParent cs (label cs v), v)) ∧
    (fallbackParent cs (label cs v) =
      if toplevel (label cs v) = "text" then nodeIdx cs "text/plain"
      else if toplevel (label cs v) = "inode" then nodeIdx cs "all/all"
      else nodeIdx cs "application/octet-stream") ∧
    (∀ e ∈ edgeList2 cs, e ∉ edgeList cs) := by
  refine ⟨edgeList2_mem_of hv hext hns,
    mem_finalEdges.mpr (Or.inr (edgeList2_mem_of hv hext hns)), ?_, rfl,
    fun e he => edgeList2_not_mem_edgeList he⟩
  intro e he h2
  obtain ⟨_, _, _, hee⟩ := mem_edgeList2 he
  rw [hee, h2]

/-- Witness for (amended) C3 at the concrete configuration, at the
orphan node `image/gif`. -/
theorem c3_witness :
    (fallbackParent cfgW (label cfgW (nodeIdx cfgW "image/gif")),
        nodeIdx cfgW "image/gif") ∈ edgeList2 cfgW ∧
    (fallbackParent cfgW (label cfgW (nodeIdx cfgW "image/gif")),
        nodeIdx cfgW "image/gif") ∈ finalEdges cfgW ∧
    (∀ e ∈ edgeList2 cfgW, e.2 = nodeIdx cfgW "image/gif" →
      e = (fallbackParent cfgW (label cfgW (nodeIdx cfgW "image/gif")),
        nodeIdx cfgW "image/gif")) ∧
    (fallbackParent cfgW (label cfgW (nodeIdx cfgW "image/gif")) =
      if toplevel (label cfgW (nodeIdx cfgW "image/gif")) = "text" then
        nodeIdx cfgW "text/plain"
      else if toplevel (label cfgW (nodeIdx cfgW "image/gif")) = "inode" then
        nodeIdx cfgW "all/all"
      else nodeIdx cfgW "application/octet-stream") ∧
    (∀ e ∈ edgeList2 cfgW, e ∉ edgeList cfgW) :=
  c3_fallback_pass cfgW (nodeIdx cfgW "image/gif") (by decide) (by decide) (by decide)

/-- C4: for every file that matches application/octet-stream via
`match_file`, `from_file` returns the same result as `from_u8` applied
to the first min(2048, length) bytes of the file. -/
theorem c4_file_byte_consistency (cs : List Checker) (f : FileM)
    (h : match_file cs "application/octet-stream" f = true) :
    from_file cs f = from_u8 cs (f.contents.take 2048) := by
  rw [from_file, from_u8]
  cases hroot : (externalsOf (nodesOf cs).length (finalEdges cs)).head? with
  | none => rfl
  | some root =>
    show from_file_node cs root f = from_u8_node cs root (f.contents.take 2048)
    simp [from_file_node, h, read_bytes]

/-- Witness for C4 at the concrete configuration and file. -/
theorem c4_witness :
    match_file cfgW "application/octet-stream" fW = true ∧
      from_file cfgW fW = from_u8 cfgW (fW.contents.take 2048) :=
  ⟨by decide, c4_file_byte_consistency cfgW fW (by decide)⟩

/-- C5 counterexample: TYPEORDER lists image/png before image/gif, so
"TypeOrder entries at the front in reverse of TypeOrder's own declared
sequence" requires gif before png; at the concrete configuration the
children of the octet-stream node are [gif, png, text] and the loop
produces [png, gif, text] — the claimed order [gif, png, text] is not
produced.  (The front order is the reverse of the children's own order,
not of TYPEORDER's.) -/
theorem c5_counterexample :
    childrenOf cfgW 2 = [3, 4, 5] ∧
    label cfgW 3 = "image/gif" ∧ label cfgW 4 = "image/png" ∧
    label cfgW 5 = "text/plain" ∧
    TYPEORDER.indexOf "image/png" < TYPEORDER.indexOf "image/gif" ∧
    reorder (fun v => TYPEORDER.contains (label cfgW v)) (childrenOf cfgW 2)
      = [4, 3, 5] ∧
    reorder (fun v => TYPEORDER.contains (label cfgW v)) (childrenOf cfgW 2)
      ≠ [3, 4, 5] := by
  decide

/-- C5 (amended): the reorder loop produces a permutation of the
original children in which the children belonging to TYPEORDER end up at
the front in reverse of their own original order among the children
(not of TYPEORDER's declared sequence), followed by the remaining
children in their original order; being a permutation, it never changes
which children pass the byte test, only the order in which they are
tried. -/
theorem c5_reorder_amended (cs : List Checker) (l : List Nat) :
    reorder (fun v => TYPEORDER.contains (label cs v)) l
      = (l.filter (fun v => TYPEORDER.contains (label cs v))).reverse
        ++ l.filter (fun v => !TYPEORDER.contains (label cs v)) ∧
    List.Perm (reorder (fun v => TYPEORDER.contains (label cs v)) l) l :=
  ⟨reorder_eq _ l, reorder_perm _ l⟩

/-- C6: totality of `from_u8` on a correctly initialized catalog — if a
root exists and some sentinel child of it matches every byte sequence
(the spec's "a fallback sentinel matches at worst"), `from_u8` returns a
concrete type and the `unwrap` never panics. -/
theorem c6_totality (cs : List Checker) (root : Nat)
    (hroot : (externalsOf (nodesOf cs).length (finalEdges cs)).head? = some root)
    (hsent : ∃ s ∈ childrenOf cs root,
      label cs s ∈ ["text/plain", "application/octet-stream", "all/all", "all/allfiles"]
        ∧ ∀ b : List Nat, match_u8_noalias cs (label cs s) b = true)
    (bytes : List Nat) : ∃ t, from_u8 cs bytes = some t := by
  rw [from_u8, hroot]
  show ∃ t, typegraphWalker cs (match_u8_noalias cs) bytes (nodesOf cs).length root = some t
  have hlt : root < (nodesOf cs).length :=
    (mem_externalsOf.mp (List.mem_of_mem_head? hroot)).1
  obtain ⟨n0, hn⟩ : ∃ n0, (nodesOf cs).length = n0 + 1 := ⟨(nodesOf cs).length - 1, by omega⟩
  rw [hn]
  apply Option.ne_none_iff_exists'.mp
  apply walker_some_of_child
  obtain ⟨s, hs, _, hm⟩ := hsent
  exact ⟨s, hs, hm bytes⟩

/-- Witness for C6: at the concrete configuration, the root is all/all
and its child all/allfiles is a sentinel matching every byte sequence. -/
theorem c6_witness : ∃ t, from_u8 cfgW [202, 254] = some t :=
  c6_totality cfgW 0 (by decide) ⟨1, by decide, by decide, fun _ => rfl⟩ [202, 254]

/-- C7: alias transparency — for an alias pair (a, canonical) in the
alias table whose canonical side is not itself an alias key (aliases map
to canonical names), `match_u8` answers identically on both names. -/
theorem c7_alias_transparency (cs : List Checker) (a canonical : String)
    (hpair : aliasLookup cs a = some canonical)
    (hcanon : aliasLookup cs canonical = none)
    (bytes : List Nat) :
    match_u8 cs a bytes = match_u8 cs canonical bytes := by
  simp [match_u8, get_alias, hpair, hcanon]

/-- Witness for C7 at the concrete configuration's declared alias pair. -/
theorem c7_witness :
    aliasLookup cfgW "application/x-zip-compressed" = some "application/zip" ∧
      match_u8 cfgW "application/x-zip-compressed" [80, 75]
        = match_u8 cfgW "application/zip" [80, 75] :=
  ⟨by decide, c7_alias_transparency cfgW "application/x-zip-compressed"
    "application/zip" (by decide) (by decide) [80, 75]⟩

/-- C8: a type name never declared by any checker (neither as a
supported type nor as an alias) can never match: `match_u8` returns
false, and so does `match_u8_noalias` for any name with no owner in the
support table. -/
theorem c8_unknown_type (cs : List Checker) (m : String)
    (hsup : ∀ c ∈ cs, m ∉ c.get_supported)
    (hal : aliasLookup cs m = none)
    (bytes : List Nat) :
    match_u8 cs m bytes = false ∧ match_u8_noalias cs m bytes = false := by
  have hn := checkerSupport_eq_none hsup
  constructor
  · rw [match_u8]
    rw [show get_alias cs m = m by simp [get_alias, hal]]
    rw [match_u8_noalias, hn]
  · rw [match_u8_noalias, hn]

/-- Witness for C8 at the concrete configuration and an undeclared name. -/
theorem c8_witness :
    match_u8 cfgW "foo/bar" [1, 2, 3] = false ∧
      match_u8_noalias cfgW "foo/bar" [1, 2, 3] = false :=
  c8_unknown_type cfgW "foo/bar" (by decide) (by decide) [1, 2, 3]

/-- C9 counterexample: with zero contributed types the four sentinel
nodes are still created, and all four have no incoming edge — the graph
does **not** lack a root node, contrary to the claim's premise. -/
theorem c9_counterexample :
    externalsOf (nodesOf ([] : List Checker)).length (finalEdges []) = [0, 1, 2, 3] ∧
      externalsOf (nodesOf ([] : List Checker)).length (finalEdges []) ≠ [] := by
  decide

/-- C9 (amended): when no checker contributes any type, the four
sentinel nodes still exist and all four are roots (nodes without
incoming edges); `from_u8` still aborts — the walk from the first root
(text/plain, which has no children) finds nothing and the `unwrap`
panics (modelled `none`) — while `from_file` does not abort: it returns
`None` as an ordinary value. -/
theorem c9_zero_types (bytes : List Nat) (f : FileM) :
    nodesOf ([] : List Checker)
        = ["text/plain", "application/octet-stream", "all/all", "all/allfiles"] ∧
    externalsOf (nodesOf ([] : List Checker)).length (finalEdges []) = [0, 1, 2, 3] ∧
    from_u8 ([] : List Checker) bytes = none ∧
    from_file ([] : List Checker) f = none :=
  ⟨by decide, by decide, rfl, rfl⟩

/-- C10: whatever a successful walk returns is the label of a strict
descendant (at least one outgoing edge away) of the start node, and
consequently `from_u8` can never return the label of the root it starts
from: the root has no incoming edge, while every walk result does. -/
theorem c10_strict_descendant (cs : List Checker) :
    (∀ (T : Type) (matchfn : String → T → Bool) (input : T) (fuel p : Nat) (t : String),
        typegraphWalker cs matchfn input fuel p = some t →
        ∃ v, Relation.TransGen (edgeRel cs) p v ∧ t = label cs v) ∧
    (∀ (bytes : List Nat) (root : Nat) (t : String),
        (externalsOf (nodesOf cs).length (finalEdges cs)).head? = some root →
        from_u8 cs bytes = some t → t ≠ label cs root) := by
  constructor
  · intro T matchfn input fuel p t h
    obtain ⟨v, hpath, ht, _⟩ := walker_descendant h
    exact ⟨v, hpath, ht⟩
  · intro bytes root t hroot hres heq
    rw [from_u8, hroot] at hres
    replace hres : typegraphWalker cs (match_u8_noalias cs) bytes
        (nodesOf cs).length root = some t := hres
    obtain ⟨v, hpath, rfl, hvlt⟩ := walker_descendant hres
    obtain ⟨hrootlt, hrootext⟩ := mem_externalsOf.mp (List.mem_of_mem_head? hroot)
    have hvr : v = root := by
      have h1 := nodeIdx_label hvlt
      have h2 := nodeIdx_label hrootlt
      rw [heq, h2] at h1
      exact h1.symm
    have hvinc := transGen_hasIncoming hpath
    rw [hvr, hrootext] at hvinc
    cases hvinc

/-- Witness for C10 at the concrete configuration: the walk result
image/png labels a strict descendant of the root all/all, and `from_u8`
does not return the root's own label. -/
theorem c10_witness :
    (∃ v, Relation.TransGen (edgeRel cfgW) 0 v ∧ "image/png" = label cfgW v) ∧
      "image/png" ≠ label cfgW 0 :=
  ⟨(c10_strict_descendant cfgW).1 (List Nat) (match_u8_noalias cfgW) [71]
      (nodesOf cfgW).length 0 "image/png" (by decide),
    (c10_strict_descendant cfgW).2 [71] 0 "image/png" (by decide) (by decide)⟩

end TreeMagic
